import Mathlib

/-!
Verification development for the "slmnet Hybrid" gatekeeper engine
(src/gatekeeper.js, n-gram version).

JavaScript strings are modelled as lists of Unicode code points (`List Nat`);
JS `Set`s are modelled as insertion-ordered duplicate-free lists; JS plain
objects used as string-keyed maps are modelled as association lists that keep
insertion order (an existing key keeps its position when reassigned, matching
JS semantics).  `toLowerCase` is modelled per code point on the alphabets that
occur in the repository's data (ASCII Latin and the basic Cyrillic block).
-/

/-- A JS string: its sequence of Unicode code points. -/
abbrev Word := List Nat

/-- Code points of a Lean string literal, used to transcribe the seed data. -/
def str (s : String) : Word := s.data.map Char.toNat

/-- The two category labels used by the gatekeeper. -/
inductive Category where
  | simple
  | complex
deriving DecidableEq

/-- One record of the brain's `memory` log: `{input, category}`. -/
structure MemRec where
  input : Word
  category : Category
deriving DecidableEq

/-- The gatekeeper's knowledge base (`gatekeeper.brain`). -/
structure Brain where
  vocab : List (Word × Nat)
  simpleVocab : List Word
  simpleNgrams : List Word
  categories : List Word
  simpleResponses : List (Word × Word)
  memory : List MemRec
deriving DecidableEq

/-- The gatekeeper object: its brain plus the initialization flag. -/
structure Gatekeeper where
  brain : Brain
  isInitialized : Bool
deriving DecidableEq

/-! ### Normalizer (`_normalizeText`) -/

/-- `String.prototype.toLowerCase`, per code point, on the alphabets occurring
in the repository's data: ASCII `A`-`Z`, Cyrillic `А`-`Я` and `Ё`. -/
def toLowerCode (n : Nat) : Nat :=
  if 65 ≤ n ∧ n ≤ 90 then n + 32
  else if 1040 ≤ n ∧ n ≤ 1071 then n + 32
  else if n = 1025 then 1105
  else n

/-- Membership in the stripped punctuation class `[.,!?;:]`. -/
def isPunct (n : Nat) : Bool :=
  n = 46 || n = 44 || n = 33 || n = 63 || n = 59 || n = 58

/-- Membership in the JS whitespace class `\s` (as used by `trim` and the
`/\s+/` splitter). -/
def isWs (n : Nat) : Bool :=
  n = 32 || n = 9 || n = 10 || n = 13 || n = 11 || n = 12 ||
  n = 160 || n = 5760 || (8192 ≤ n && n ≤ 8202) ||
  n = 8232 || n = 8233 || n = 8239 || n = 8287 || n = 12288 || n = 65279

/-- Drop leading whitespace. -/
def trimStart (l : Word) : Word := l.dropWhile (fun c => isWs c)

/-- Drop trailing whitespace. -/
def trimEnd (l : Word) : Word := ((l.reverse).dropWhile (fun c => isWs c)).reverse

/-- `String.prototype.trim`: drop whitespace at both ends. -/
def jsTrim (l : Word) : Word := trimEnd (trimStart l)

/-- `_normalizeText(text)`: lower-case, strip `[.,!?;:]` everywhere, trim. -/
def normalizeText (text : Word) : Word :=
  jsTrim ((text.map toLowerCode).filter (fun c => !(isPunct c)))

/-! ### Word splitting

`text.split(/\s+/)` splits on runs of whitespace; every use in the source
immediately discards empty tokens (via `.filter(w => w.length > 0)` or a
`if (word && ...)` truthiness guard), so splitting at every single whitespace
character followed by the same empty-token filter yields the identical word
list.  We model the splitter that way. -/

/-- Split at each whitespace character; `acc` holds the current chunk
reversed.  Empty chunks may appear and are discarded by all callers. -/
def charSplitAux (acc : Word) : Word → List Word
  | [] => [acc.reverse]
  | c :: cs => if isWs c then acc.reverse :: charSplitAux [] cs
               else charSplitAux (c :: acc) cs

/-- Split a string at whitespace characters (empty chunks included). -/
def charSplit (t : Word) : List Word := charSplitAux [] t

/-- `t.split(/\s+/).filter(w => w.length > 0)`: the word list of a string. -/
def wordsOf (t : Word) : List Word :=
  (charSplit t).filter (fun w => decide (0 < w.length))

/-! ### Sets and objects -/

/-- `Set.prototype.add`: append the element unless already present. -/
def setAdd (s : List Word) (w : Word) : List Word :=
  if w ∈ s then s else s ++ [w]

/-- `new Set(arr)`: insert the elements in order, keeping first occurrences. -/
def setFromList (l : List Word) : List Word := l.foldl setAdd []

/-- `obj.hasOwnProperty(k)` for a string-keyed JS object. -/
def objHasKey (o : List (Word × Word)) (k : Word) : Bool :=
  o.any (fun p => decide (p.1 = k))

/-- `obj[k] = v`: overwrite in place if the key exists, else append. -/
def objInsert (o : List (Word × Word)) (k v : Word) : List (Word × Word) :=
  if objHasKey o k then o.map (fun p => if p.1 = k then (k, v) else p)
  else o ++ [(k, v)]

/-- `obj[k]` as an optional value. -/
def objGet (o : List (Word × Word)) (k : Word) : Option Word :=
  (o.find? (fun p => decide (p.1 = k))).map Prod.snd

/-! ### Classifier -/

/-- The bigram strings `words[i] ++ " " ++ words[i+1]` scanned by rule 3 of
`classify` (code point 32 is the space). -/
def bigrams (ws : List Word) : List Word :=
  (ws.zip ws.tail).map (fun p => p.1 ++ 32 :: p.2)

/-- `gatekeeper.classify` (n-gram version, src/gatekeeper.js lines 185-219). -/
def classify (g : Gatekeeper) (text : Word) : Category :=
  if !g.isInitialized then .complex
  else
    let normalizedText := normalizeText text
    if objHasKey g.brain.simpleResponses normalizedText then .simple
    else
      let words := wordsOf normalizedText
      if words.isEmpty then .simple
      else if words.any (fun word => !(decide (word ∈ g.brain.simpleVocab))) then .complex
      else if decide (words.length > 1) &&
              (bigrams words).any (fun bg => !(decide (bg ∈ g.brain.simpleNgrams))) then .complex
      else .simple

/-- The earlier `gatekeeper.classify` without the bigram-structure check
(src/gatekeeper.js lines 37-52); it reads the same brain fields apart from
`simpleNgrams`, which it never consults. -/
def classifyLegacy (g : Gatekeeper) (text : Word) : Category :=
  if !g.isInitialized then .complex
  else
    let normalizedText := normalizeText text
    if objHasKey g.brain.simpleResponses normalizedText then .simple
    else
      let words := wordsOf normalizedText
      if words.isEmpty then .simple
      else if words.any (fun word => !(decide (word ∈ g.brain.simpleVocab))) then .complex
      else .simple

/-- The fixed fallback acknowledgment of `getSimpleResponse`. -/
def okayText : Word := str "Okay!"

/-- `gatekeeper.getSimpleResponse`: the stored reply, or `"Okay!"` when the
key is absent (or its stored value is the falsy empty string). -/
def getSimpleResponse (g : Gatekeeper) (text : Word) : Word :=
  match objGet g.brain.simpleResponses (normalizeText text) with
  | some v => if v.isEmpty then okayText else v
  | none => okayText

/-! ### Learner -/

/-- JS truthiness of the optional `newResponse` argument: non-null and
non-empty. -/
def respTruthy : Option Word → Bool
  | none => false
  | some r => !r.isEmpty

/-- The `category === 'simple'` branch of `learnFromFeedback`: store the
response when truthy, add every word to `simpleVocab`, and add every adjacent
bigram to `simpleNgrams` when the phrase has at least two words. -/
def learnSimpleUpd (b : Brain) (n : Word) (resp : Option Word) : Brain :=
  { b with
    simpleResponses :=
      if respTruthy resp then objInsert b.simpleResponses n (resp.getD [])
      else b.simpleResponses
    simpleVocab := (wordsOf n).foldl setAdd b.simpleVocab
    simpleNgrams :=
      if decide ((wordsOf n).length > 1) then
        (bigrams (wordsOf n)).foldl setAdd b.simpleNgrams
      else b.simpleNgrams }

/-- One step of `_updateVocab`: register a non-empty word under the next
sequential index when absent. -/
def vocabAdd (v : List (Word × Nat)) (w : Word) : List (Word × Nat) :=
  if !w.isEmpty && !(v.any (fun p => decide (p.1 = w))) then v ++ [(w, v.length)]
  else v

/-- `gatekeeper._updateVocab`: register every word of the text. -/
def updateVocab (v : List (Word × Nat)) (t : Word) : List (Word × Nat) :=
  (charSplit t).foldl vocabAdd v

/-- The `memory` update of `learnFromFeedback`: append `{input, category}`
unless some record already has this exact input. -/
def newMemory (m : List MemRec) (n : Word) (cat : Category) : List MemRec :=
  if m.any (fun mem => decide (mem.input = n)) then m else m ++ [MemRec.mk n cat]

/-- `gatekeeper.learnFromFeedback(text, correctCategory, newResponse)`
(src/gatekeeper.js lines 227-251); the trailing `_saveBrain()` call is a
persistence side effect outside the returned state. -/
def learnFromFeedback (g : Gatekeeper) (text : Word) (cat : Category)
    (newResponse : Option Word) : Gatekeeper :=
  let n := normalizeText text
  let b1 := if cat = .simple then learnSimpleUpd g.brain n newResponse else g.brain
  let b2 := { b1 with vocab := updateVocab b1.vocab n }
  ⟨{ b2 with memory := newMemory b2.memory n cat }, g.isInitialized⟩

/-! ### Seed brain (`_prepareInitialBrain`) -/

/-- One entry of the bilingual seed list; complex entries carry no response
(the field is only read for simple entries). -/
structure SeedRec where
  input : Word
  category : Category
  response : Word

/-- The fixed bilingual seed list of `_prepareInitialBrain`. -/
def seedMemory : List SeedRec := [
  ⟨str "hello", .simple, str "Hello there!"⟩,
  ⟨str "hi", .simple, str "Hi!"⟩,
  ⟨str "hey", .simple, str "Hey!"⟩,
  ⟨str "hello there", .simple, str "Hello to you too!"⟩,
  ⟨str "how are you", .simple, str "I'm doing great, thanks for asking!"⟩,
  ⟨str "thanks", .simple, str "You're welcome!"⟩,
  ⟨str "thank you", .simple, str "Happy to help!"⟩,
  ⟨str "thx", .simple, str "Anytime!"⟩,
  ⟨str "ty", .simple, str "No problem!"⟩,
  ⟨str "ok", .simple, str "Got it."⟩,
  ⟨str "okay", .simple, str "Alright."⟩,
  ⟨str "bye", .simple, str "See you later!"⟩,
  ⟨str "goodbye", .simple, str "Goodbye!"⟩,
  ⟨str "привет", .simple, str "Приветствую!"⟩,
  ⟨str "здравствуй", .simple, str "Здравствуйте!"⟩,
  ⟨str "как дела", .simple, str "Все отлично, спасибо!"⟩,
  ⟨str "спасибо", .simple, str "Пожалуйста!"⟩,
  ⟨str "благодарю", .simple, str "Рад помочь!"⟩,
  ⟨str "спс", .simple, str "Не за что!"⟩,
  ⟨str "пока", .simple, str "До скорой встречи!"⟩,
  ⟨str "хорошо", .simple, str "Отлично!"⟩,
  ⟨str "ок", .simple, str "Принято."⟩,
  ⟨str "tell me a joke", .complex, str ""⟩,
  ⟨str "what is the weather in london", .complex, str ""⟩,
  ⟨str "расскажи анекдот", .complex, str ""⟩,
  ⟨str "кто такой исаак ньютон", .complex, str ""⟩,
  ⟨str "compare javascript and python", .complex, str ""⟩ ]

/-- The brain object literal of `gatekeeper` before seeding. -/
def emptyBrain : Brain :=
  { vocab := [], simpleVocab := [], simpleNgrams := [],
    categories := [str "simple", str "complex"],
    simpleResponses := [], memory := [] }

/-- One iteration of the `_prepareInitialBrain` seeding loop. -/
def seedStep (brain : Brain) (mem : SeedRec) : Brain :=
  let normalizedInput := normalizeText mem.input
  let brain := { brain with memory := brain.memory ++ [MemRec.mk normalizedInput mem.category] }
  let brain := { brain with vocab := updateVocab brain.vocab normalizedInput }
  if mem.category = .simple then
    let ws := wordsOf normalizedInput
    let brain := { brain with
      simpleResponses := objInsert brain.simpleResponses normalizedInput mem.response }
    let brain := { brain with simpleVocab := ws.foldl setAdd brain.simpleVocab }
    if decide (ws.length > 1) then
      { brain with simpleNgrams := (bigrams ws).foldl setAdd brain.simpleNgrams }
    else brain
  else brain

/-- `gatekeeper._prepareInitialBrain`: the freshly bootstrapped brain. -/
def prepareInitialBrain : Brain := seedMemory.foldl seedStep emptyBrain

/-- The gatekeeper right after `init()` found no saved record: seed brain,
initialization flag set. -/
def seedGatekeeper : Gatekeeper := ⟨prepareInitialBrain, true⟩

/-! ### Persistence (`init` loading branch and `_saveBrain`) -/

/-- The serialized brain record: all brain fields in the object-literal order,
with the two set-valued fields flattened to arrays.  The two set fields are
optional on load (older records may lack them). -/
structure StoredBrain where
  vocab : List (Word × Nat)
  simpleVocab : Option (List Word)
  simpleNgrams : Option (List Word)
  categories : List Word
  simpleResponses : List (Word × Word)
  memory : List MemRec
deriving DecidableEq

/-- The loading branch of `init()`: `vocab`, `simpleResponses` and `memory`
are taken as stored, the sets are rebuilt via `new Set(arr || [])`, and
`categories` keeps the literal constant (it is never loaded). -/
def loadBrain (sr : StoredBrain) : Brain :=
  { vocab := sr.vocab
    simpleVocab := setFromList (sr.simpleVocab.getD [])
    simpleNgrams := setFromList (sr.simpleNgrams.getD [])
    categories := [str "simple", str "complex"]
    simpleResponses := sr.simpleResponses
    memory := sr.memory }

/-- `gatekeeper._saveBrain`: spread the brain, flattening the sets to arrays
(`Array.from` of a JS `Set` lists elements in insertion order, which is how
`simpleVocab`/`simpleNgrams` are maintained here). -/
def saveBrain (b : Brain) : StoredBrain :=
  { vocab := b.vocab, simpleVocab := some b.simpleVocab,
    simpleNgrams := some b.simpleNgrams, categories := b.categories,
    simpleResponses := b.simpleResponses, memory := b.memory }

/-! ### Event traces -/

/-- One `learnFromFeedback` call, as recorded in a trace. -/
structure Event where
  text : Word
  category : Category
  response : Option Word

/-- Apply a sequence of `learnFromFeedback` calls. -/
def applyEvents (g : Gatekeeper) (evs : List Event) : Gatekeeper :=
  evs.foldl (fun g e => learnFromFeedback g e.text e.category e.response) g

/-- All words occurring in the simple phrases of the seed list. -/
def seedSimpleWords : List Word :=
  (seedMemory.filter (fun m => decide (m.category = Category.simple))).flatMap
    (fun m => wordsOf (normalizeText m.input))

/-- `word` was seen in some "simple" learning event: either in a simple seed
phrase, or in the text of a simple event of the trace. -/
def SeenSimple (evs : List Event) (word : Word) : Prop :=
  word ∈ seedSimpleWords ∨
    ∃ e ∈ evs, e.category = Category.simple ∧ word ∈ wordsOf (normalizeText e.text)

instance (evs : List Event) (word : Word) : Decidable (SeenSimple evs word) := by
  unfold SeenSimple
  exact inferInstance

/-! ### The spec's five-rule cascade, transcribed from its own wording -/

/-- Scan a list left to right and return the first element absent from `s`
(the fail-fast scans of rules 3 and 4 of the spec). -/
def firstAbsent (s : List Word) : List Word → Option Word
  | [] => none
  | w :: ws => if w ∈ s then firstAbsent s ws else some w

/-- The adjacent word pairs `"w_i w_{i+1}"` of a word list, as the spec
describes them. -/
def adjacentPairs : List Word → List Word
  | [] => []
  | [_] => []
  | a :: b :: rest => (a ++ 32 :: b) :: adjacentPairs (b :: rest)

/-- The five-rule cascade exactly as the spec words it: (1) exact key match;
(2) zero words; (3) first word absent from `simpleVocab`; (4) with at least
two words, first adjacent pair absent from `simpleNgrams`; (5) simple. -/
def classifyCascade (b : Brain) (text : Word) : Category :=
  let n := normalizeText text
  if n ∈ b.simpleResponses.map Prod.fst then .simple
  else
    let ws := wordsOf n
    if ws.length = 0 then .simple
    else
      match firstAbsent b.simpleVocab ws with
      | some _ => .complex
      | none =>
        if 2 ≤ ws.length then
          match firstAbsent b.simpleNgrams (adjacentPairs ws) with
          | some _ => .complex
          | none => .simple
        else .simple

/-! ## Helper lemmas -/

theorem toLowerCode_idem (n : Nat) : toLowerCode (toLowerCode n) = toLowerCode n := by
  unfold toLowerCode
  split_ifs <;> omega

theorem dropWhile_exists_prefix (p : Nat → Bool) (l : Word) :
    ∃ s, s ++ l.dropWhile p = l := by
  induction l with
  | nil => exact ⟨[], rfl⟩
  | cons a t ih =>
    by_cases hp : p a = true
    · obtain ⟨s, hs⟩ := ih
      exact ⟨a :: s, by simp [List.dropWhile_cons, hp, hs]⟩
    · exact ⟨[], by simp [List.dropWhile_cons, hp]⟩

theorem mem_of_mem_dropWhile {p : Nat → Bool} {l : Word} {x : Nat}
    (h : x ∈ l.dropWhile p) : x ∈ l := by
  obtain ⟨s, hs⟩ := dropWhile_exists_prefix p l
  rw [← hs]
  exact List.mem_append_right s h

theorem dropWhile_dropWhile (p : Nat → Bool) (l : Word) :
    (l.dropWhile p).dropWhile p = l.dropWhile p := by
  induction l with
  | nil => rfl
  | cons a t ih =>
    by_cases hp : p a = true
    · simpa [List.dropWhile_cons, hp] using ih
    · simp [List.dropWhile_cons, hp]

theorem dropWhile_head_false {p : Nat → Bool} {l t : Word} {a : Nat}
    (h : l.dropWhile p = a :: t) : p a = false := by
  induction l with
  | nil => cases h
  | cons b u ih =>
    by_cases hp : p b = true
    · rw [List.dropWhile_cons, if_pos hp] at h
      exact ih h
    · rw [List.dropWhile_cons, if_neg hp] at h
      cases h
      exact Bool.eq_false_iff.mpr hp

theorem mem_trimStart {l : Word} {x : Nat} (h : x ∈ trimStart l) : x ∈ l :=
  mem_of_mem_dropWhile h

theorem mem_trimEnd {l : Word} {x : Nat} (h : x ∈ trimEnd l) : x ∈ l := by
  unfold trimEnd at h
  rw [List.mem_reverse] at h
  exact List.mem_reverse.mp (mem_of_mem_dropWhile h)

theorem mem_jsTrim {l : Word} {x : Nat} (h : x ∈ jsTrim l) : x ∈ l :=
  mem_trimStart (mem_trimEnd h)

theorem trimEnd_exists_append (l : Word) : ∃ s, trimEnd l ++ s = l := by
  obtain ⟨s, hs⟩ := dropWhile_exists_prefix (fun c => isWs c) l.reverse
  refine ⟨s.reverse, ?_⟩
  have := congrArg List.reverse hs
  simpa [trimEnd, List.reverse_append] using this

theorem trimEnd_trimEnd (l : Word) : trimEnd (trimEnd l) = trimEnd l := by
  simp [trimEnd, List.reverse_reverse, dropWhile_dropWhile]

theorem trimStart_trimEnd_trimStart (l : Word) :
    trimStart (trimEnd (trimStart l)) = trimEnd (trimStart l) := by
  cases h : trimStart l with
  | nil => simp [trimEnd, trimStart]
  | cons a t =>
    have ha : isWs a = false := dropWhile_head_false h
    cases h2 : trimEnd (a :: t) with
    | nil => simp [trimStart]
    | cons c u =>
      obtain ⟨s, hs⟩ := trimEnd_exists_append (a :: t)
      rw [h2] at hs
      have hca : c = a := by
        have := congrArg (fun l => l.head?) hs
        simpa using this
      subst hca
      simp [trimStart, List.dropWhile_cons, ha]

theorem jsTrim_jsTrim (l : Word) : jsTrim (jsTrim l) = jsTrim l := by
  unfold jsTrim
  rw [trimStart_trimEnd_trimStart, trimEnd_trimEnd]

theorem map_eq_self_of_mem {f : Nat → Nat} {l : Word}
    (h : ∀ x ∈ l, f x = x) : l.map f = l := by
  induction l with
  | nil => rfl
  | cons a t ih =>
    rw [List.map_cons, h a (List.mem_cons_self a t), ih fun x hx => h x (List.mem_cons_of_mem a hx)]

theorem filter_eq_self_of_mem {p : Nat → Bool} {l : Word}
    (h : ∀ x ∈ l, p x = true) : l.filter p = l := by
  induction l with
  | nil => rfl
  | cons a t ih =>
    rw [List.filter_cons, if_pos (h a (List.mem_cons_self a t)),
      ih fun x hx => h x (List.mem_cons_of_mem a hx)]

theorem normalizeText_chars_lower {s : Word} {c : Nat}
    (h : c ∈ normalizeText s) : toLowerCode c = c := by
  unfold normalizeText at h
  have h1 : c ∈ (s.map toLowerCode).filter (fun c => !(isPunct c)) := mem_jsTrim h
  have h2 : c ∈ s.map toLowerCode := List.mem_of_mem_filter h1
  obtain ⟨c0, _, hc0⟩ := List.mem_map.mp h2
  rw [← hc0]
  exact toLowerCode_idem c0

theorem normalizeText_chars_not_punct {s : Word} {c : Nat}
    (h : c ∈ normalizeText s) : isPunct c = false := by
  unfold normalizeText at h
  have h1 : c ∈ (s.map toLowerCode).filter (fun c => !(isPunct c)) := mem_jsTrim h
  have := List.of_mem_filter h1
  simpa using this

/-- Claim C7: the normalizer is idempotent — lower-casing, stripping the
punctuation set `. , ! ? ; :` and trimming a second time changes nothing. -/
theorem normalizeText_idem (s : Word) : normalizeText (normalizeText s) = normalizeText s := by
  conv_lhs => rw [normalizeText]
  rw [map_eq_self_of_mem fun c hc => normalizeText_chars_lower hc]
  rw [filter_eq_self_of_mem fun c hc => by simp [normalizeText_chars_not_punct hc]]
  conv_lhs => rw [normalizeText]
  rw [jsTrim_jsTrim]
  rfl

/-- Claim C8: whatever the brain contains, classifying before the
initialization flag is set yields `complex`. -/
theorem classify_before_ready (g : Gatekeeper) (text : Word)
    (h : g.isInitialized = false) : classify g text = Category.complex := by
  simp [classify, h]

/-- Witness for C8 at a concrete uninitialized gatekeeper. -/
theorem classify_before_ready_witness :
    (Gatekeeper.mk prepareInitialBrain false).isInitialized = false ∧
    classify (Gatekeeper.mk prepareInitialBrain false) (str "hello") = Category.complex :=
  ⟨rfl, classify_before_ready (Gatekeeper.mk prepareInitialBrain false) (str "hello") rfl⟩

/-- Claim C10: the n-gram classifier refines the legacy one toward
`complex` — whenever the bigram-checking `classify` answers `simple`, the
earlier `classify` without the bigram check answers `simple` on the same
state. -/
theorem ngram_refines_legacy (g : Gatekeeper) (text : Word)
    (h : classify g text = Category.simple) :
    classifyLegacy g text = Category.simple := by
  by_cases hi : g.isInitialized = true
  · by_cases hk : objHasKey g.brain.simpleResponses (normalizeText text) = true
    · simp [classifyLegacy, hi, hk]
    · rw [Bool.not_eq_true] at hk
      by_cases he : (wordsOf (normalizeText text)).isEmpty = true
      · simp [classifyLegacy, hi, hk, he]
      · rw [Bool.not_eq_true] at he
        by_cases ha : (wordsOf (normalizeText text)).any
            (fun word => !(decide (word ∈ g.brain.simpleVocab))) = true
        · exfalso
          simp [classify, hi, hk, he, ha] at h
        · rw [Bool.not_eq_true] at ha
          simp [classifyLegacy, hi, hk, he, ha]
  · rw [Bool.not_eq_true] at hi
    exfalso
    simp [classify, hi] at h

set_option maxRecDepth 100000 in
/-- Witness for C10 on the seed gatekeeper and the query `"hello"`. -/
theorem ngram_refines_legacy_witness :
    classify seedGatekeeper (str "hello") = Category.simple ∧
    classifyLegacy seedGatekeeper (str "hello") = Category.simple :=
  ⟨by decide, ngram_refines_legacy seedGatekeeper (str "hello") (by decide)⟩

theorem mem_setAdd {s : List Word} {w x : Word} :
    x ∈ setAdd s w ↔ x ∈ s ∨ x = w := by
  unfold setAdd
  by_cases hw : w ∈ s
  · rw [if_pos hw]
    constructor
    · exact Or.inl
    · rintro (h | rfl)
      · exact h
      · exact hw
  · rw [if_neg hw]
    simp

theorem mem_foldl_setAdd {l : List Word} {s : List Word} {x : Word} :
    x ∈ l.foldl setAdd s ↔ x ∈ s ∨ x ∈ l := by
  induction l generalizing s with
  | nil => simp
  | cons a t ih =>
    rw [List.foldl_cons, ih, mem_setAdd]
    simp [or_assoc]

theorem foldl_setAdd_eq_of_subset {l : List Word} {s : List Word}
    (h : ∀ x ∈ l, x ∈ s) : l.foldl setAdd s = s := by
  induction l with
  | nil => rfl
  | cons a t ih =>
    rw [List.foldl_cons, setAdd, if_pos (h a (List.mem_cons_self a t))]
    exact ih fun x hx => h x (List.mem_cons_of_mem a hx)

theorem nodup_setAdd {s : List Word} {w : Word} (h : s.Nodup) :
    (setAdd s w).Nodup := by
  unfold setAdd
  by_cases hw : w ∈ s
  · rwa [if_pos hw]
  · rw [if_neg hw]
    simp [List.nodup_append, h, hw]

theorem nodup_foldl_setAdd {l : List Word} {s : List Word} (h : s.Nodup) :
    (l.foldl setAdd s).Nodup := by
  induction l generalizing s with
  | nil => exact h
  | cons a t ih => exact ih (nodup_setAdd h)

theorem foldl_setAdd_of_nodup_append {l : List Word} {s : List Word}
    (h : (s ++ l).Nodup) : l.foldl setAdd s = s ++ l := by
  induction l generalizing s with
  | nil => simp
  | cons a t ih =>
    have ha : a ∉ s := by
      intro hmem
      have := List.disjoint_of_nodup_append h
      exact this hmem (List.mem_cons_self a t)
    rw [List.append_cons] at h
    rw [List.foldl_cons, setAdd, if_neg ha, ih h]
    simp

theorem setFromList_nodup (l : List Word) : (setFromList l).Nodup :=
  nodup_foldl_setAdd List.nodup_nil

theorem mem_setFromList {l : List Word} {x : Word} :
    x ∈ setFromList l ↔ x ∈ l := by
  unfold setFromList
  rw [mem_foldl_setAdd]
  simp

theorem setFromList_idem (l : List Word) :
    setFromList (setFromList l) = setFromList l := by
  have := foldl_setAdd_of_nodup_append (s := []) (l := setFromList l)
    (by simpa using setFromList_nodup l)
  simpa [setFromList] using this

/-- Claim C6: deserializing then re-serializing a stored record is
idempotent; set membership of `simpleVocab`/`simpleNgrams` survives the
load exactly; and a record missing either set field loads it as empty. -/
theorem persistence_roundtrip (sr : StoredBrain) :
    saveBrain (loadBrain (saveBrain (loadBrain sr))) = saveBrain (loadBrain sr) ∧
    (∀ x, x ∈ (loadBrain sr).simpleVocab ↔ x ∈ sr.simpleVocab.getD []) ∧
    (∀ x, x ∈ (loadBrain sr).simpleNgrams ↔ x ∈ sr.simpleNgrams.getD []) ∧
    (sr.simpleVocab = none → (loadBrain sr).simpleVocab = []) ∧
    (sr.simpleNgrams = none → (loadBrain sr).simpleNgrams = []) := by
  refine ⟨?_, fun x => mem_setFromList, fun x => mem_setFromList, ?_, ?_⟩
  · simp [saveBrain, loadBrain, setFromList_idem]
  · intro h
    simp [loadBrain, h, setFromList]
  · intro h
    simp [loadBrain, h, setFromList]

/-- Witness for C6 at a concrete stored record missing both set fields. -/
theorem persistence_roundtrip_witness :
    saveBrain (loadBrain (saveBrain (loadBrain (StoredBrain.mk [] none none [] [] [])))) =
      saveBrain (loadBrain (StoredBrain.mk [] none none [] [] [])) ∧
    (loadBrain (StoredBrain.mk [] none none [] [] [])).simpleVocab = [] ∧
    (loadBrain (StoredBrain.mk [] none none [] [] [])).simpleNgrams = [] :=
  ⟨(persistence_roundtrip (StoredBrain.mk [] none none [] [] [])).1,
   (persistence_roundtrip (StoredBrain.mk [] none none [] [] [])).2.2.2.1 rfl,
   (persistence_roundtrip (StoredBrain.mk [] none none [] [] [])).2.2.2.2 rfl⟩

theorem find_map_upd (o : List (Word × Word)) (k v : Word)
    (hk : objHasKey o k = true) :
    (o.map (fun p => if p.1 = k then (k, v) else p)).find?
      (fun p => decide (p.1 = k)) = some (k, v) := by
  induction o with
  | nil => simp [objHasKey] at hk
  | cons p rest ih =>
    by_cases hp : p.1 = k
    · simp [List.map_cons, hp, List.find?]
    · have hrest : objHasKey rest k = true := by
        have := List.any_eq_true.mp hk
        obtain ⟨q, hq, hqk⟩ := this
        rcases List.mem_cons.mp hq with rfl | hq'
        · exact absurd (of_decide_eq_true hqk) hp
        · exact List.any_eq_true.mpr ⟨q, hq', hqk⟩
      simp only [List.map_cons, if_neg hp]
      rw [List.find?_cons_of_neg _ (by simpa using hp)]
      exact ih hrest

theorem find_append_fresh (o : List (Word × Word)) (k v : Word)
    (hk : objHasKey o k = false) :
    (o ++ [(k, v)]).find? (fun p => decide (p.1 = k)) = some (k, v) := by
  induction o with
  | nil => simp [List.find?]
  | cons p rest ih =>
    have hp : ¬ p.1 = k := by
      intro hpk
      have : objHasKey (p :: rest) k = true :=
        List.any_eq_true.mpr ⟨p, List.mem_cons_self p rest, decide_eq_true hpk⟩
      rw [this] at hk
      cases hk
    have hrest : objHasKey rest k = false := by
      rw [← Bool.not_eq_true]
      intro hh
      obtain ⟨q, hq, hqk⟩ := List.any_eq_true.mp hh
      have : objHasKey (p :: rest) k = true :=
        List.any_eq_true.mpr ⟨q, List.mem_cons_of_mem p hq, hqk⟩
      rw [this] at hk
      cases hk
    rw [List.cons_append, List.find?_cons_of_neg _ (by simpa using hp)]
    exact ih hrest

theorem objHasKey_objInsert_self (o : List (Word × Word)) (k v : Word) :
    objHasKey (objInsert o k v) k = true := by
  unfold objInsert
  by_cases hk : objHasKey o k = true
  · rw [if_pos hk]
    obtain ⟨q, hq, hqk⟩ := List.any_eq_true.mp hk
    apply List.any_eq_true.mpr
    refine ⟨(k, v), List.mem_map.mpr ⟨q, hq, ?_⟩, by simp⟩
    simp [of_decide_eq_true hqk]
  · rw [Bool.not_eq_true] at hk
    rw [if_neg (by simp [hk])]
    apply List.any_eq_true.mpr
    exact ⟨(k, v), List.mem_append_right o (List.mem_cons_self _ _), by simp⟩

theorem objGet_objInsert_self (o : List (Word × Word)) (k v : Word) :
    objGet (objInsert o k v) k = some v := by
  unfold objGet objInsert
  by_cases hk : objHasKey o k = true
  · rw [if_pos hk, find_map_upd o k v hk]
    rfl
  · rw [Bool.not_eq_true] at hk
    rw [if_neg (by simp [hk]), find_append_fresh o k v hk]
    rfl

theorem learn_isInitialized (g : Gatekeeper) (t : Word) (c : Category) (r : Option Word) :
    (learnFromFeedback g t c r).isInitialized = g.isInitialized := rfl

theorem learn_responses_simple (g : Gatekeeper) (t : Word) (r : Option Word) :
    (learnFromFeedback g t .simple r).brain.simpleResponses =
      if respTruthy r then objInsert g.brain.simpleResponses (normalizeText t) (r.getD [])
      else g.brain.simpleResponses := rfl

theorem learn_simpleVocab_simple (g : Gatekeeper) (t : Word) (r : Option Word) :
    (learnFromFeedback g t .simple r).brain.simpleVocab =
      (wordsOf (normalizeText t)).foldl setAdd g.brain.simpleVocab := rfl

theorem learn_ngrams_simple (g : Gatekeeper) (t : Word) (r : Option Word) :
    (learnFromFeedback g t .simple r).brain.simpleNgrams =
      if decide ((wordsOf (normalizeText t)).length > 1) then
        (bigrams (wordsOf (normalizeText t))).foldl setAdd g.brain.simpleNgrams
      else g.brain.simpleNgrams := rfl

theorem learn_frame_complex (g : Gatekeeper) (t : Word) (r : Option Word) :
    (learnFromFeedback g t .complex r).brain.simpleVocab = g.brain.simpleVocab ∧
    (learnFromFeedback g t .complex r).brain.simpleNgrams = g.brain.simpleNgrams ∧
    (learnFromFeedback g t .complex r).brain.simpleResponses = g.brain.simpleResponses :=
  ⟨rfl, rfl, rfl⟩

theorem learn_vocab (g : Gatekeeper) (t : Word) (c : Category) (r : Option Word) :
    (learnFromFeedback g t c r).brain.vocab =
      updateVocab g.brain.vocab (normalizeText t) := by
  cases c <;> rfl

theorem learn_memory (g : Gatekeeper) (t : Word) (c : Category) (r : Option Word) :
    (learnFromFeedback g t c r).brain.memory =
      newMemory g.brain.memory (normalizeText t) c := by
  cases c <;> rfl

theorem learn_categories (g : Gatekeeper) (t : Word) (c : Category) (r : Option Word) :
    (learnFromFeedback g t c r).brain.categories = g.brain.categories := by
  cases c <;> rfl

/-- Claim C2: teaching a phrase as simple with a non-empty response makes the
phrase classify as simple and makes the lookup return that response. -/
theorem learn_simple_then_classify (g : Gatekeeper) (p r : Word)
    (hinit : g.isInitialized = true) (hr : r ≠ []) :
    classify (learnFromFeedback g p .simple (some r)) p = Category.simple ∧
    getSimpleResponse (learnFromFeedback g p .simple (some r)) p = r := by
  have hre : r.isEmpty = false := by
    cases r with
    | nil => exact absurd rfl hr
    | cons a t => rfl
  have htr : respTruthy (some r) = true := by simp [respTruthy, hre]
  have hresp : (learnFromFeedback g p .simple (some r)).brain.simpleResponses =
      objInsert g.brain.simpleResponses (normalizeText p) r := by
    rw [learn_responses_simple, if_pos htr]
    rfl
  constructor
  · have hkey : objHasKey (learnFromFeedback g p .simple (some r)).brain.simpleResponses
        (normalizeText p) = true := by
      rw [hresp]
      exact objHasKey_objInsert_self _ _ _
    simp [classify, learn_isInitialized, hinit, hkey]
  · unfold getSimpleResponse
    rw [hresp, objGet_objInsert_self]
    simp [hre]

set_option maxRecDepth 1000000 in
/-- Witness for C2 at the seed gatekeeper, a fresh phrase and a concrete
response. -/
theorem learn_simple_then_classify_witness :
    seedGatekeeper.isInitialized = true ∧ str "sup" ≠ ([] : Word) ∧
    (classify (learnFromFeedback seedGatekeeper (str "yo dawg") .simple
        (some (str "sup"))) (str "yo dawg") = Category.simple ∧
     getSimpleResponse (learnFromFeedback seedGatekeeper (str "yo dawg") .simple
        (some (str "sup"))) (str "yo dawg") = str "sup") :=
  ⟨rfl, by decide,
   learn_simple_then_classify seedGatekeeper (str "yo dawg") (str "sup") rfl (by decide)⟩

theorem vocabAdd_hasKey_mono {v : List (Word × Nat)} {x : Word} (w : Word)
    (h : v.any (fun p => decide (p.1 = x)) = true) :
    (vocabAdd v w).any (fun p => decide (p.1 = x)) = true := by
  unfold vocabAdd
  by_cases hc : (!w.isEmpty && !(v.any (fun p => decide (p.1 = w)))) = true
  · rw [if_pos hc, List.any_append, h]
    rfl
  · rw [if_neg hc]
    exact h

theorem foldl_vocabAdd_hasKey_mono (l : List Word) {v : List (Word × Nat)} {x : Word}
    (h : v.any (fun p => decide (p.1 = x)) = true) :
    (l.foldl vocabAdd v).any (fun p => decide (p.1 = x)) = true := by
  induction l generalizing v with
  | nil => exact h
  | cons a t ih => exact ih (vocabAdd_hasKey_mono a h)

theorem vocabAdd_self_hasKey {v : List (Word × Nat)} {w : Word}
    (hw : w.isEmpty = false) :
    (vocabAdd v w).any (fun p => decide (p.1 = w)) = true := by
  unfold vocabAdd
  by_cases hk : v.any (fun p => decide (p.1 = w)) = true
  · rw [if_neg (by simp [hk])]
    exact hk
  · rw [Bool.not_eq_true] at hk
    rw [if_pos (by simp [hw, hk]), List.any_append]
    simp

theorem foldl_vocabAdd_all_keys (l : List Word) (v : List (Word × Nat)) :
    ∀ w ∈ l, w.isEmpty = false →
      (l.foldl vocabAdd v).any (fun p => decide (p.1 = w)) = true := by
  induction l generalizing v with
  | nil => intro w hw; cases hw
  | cons a t ih =>
    intro w hw hwe
    rcases List.mem_cons.mp hw with rfl | hw'
    · exact foldl_vocabAdd_hasKey_mono t (vocabAdd_self_hasKey hwe)
    · exact ih (vocabAdd v a) w hw' hwe

theorem foldl_vocabAdd_eq_of_keys {l : List Word} {v : List (Word × Nat)}
    (h : ∀ w ∈ l, w.isEmpty = true ∨ v.any (fun p => decide (p.1 = w)) = true) :
    l.foldl vocabAdd v = v := by
  induction l with
  | nil => rfl
  | cons a t ih =>
    have ha : vocabAdd v a = v := by
      unfold vocabAdd
      rcases h a (List.mem_cons_self a t) with he | hk
      · rw [if_neg (by simp [he])]
      · rw [if_neg (by simp [hk])]
    rw [List.foldl_cons, ha]
    exact ih fun w hw => h w (List.mem_cons_of_mem a hw)

theorem updateVocab_idem (v : List (Word × Nat)) (t : Word) :
    updateVocab (updateVocab v t) t = updateVocab v t := by
  unfold updateVocab
  apply foldl_vocabAdd_eq_of_keys
  intro w hw
  by_cases he : w.isEmpty = true
  · exact Or.inl he
  · rw [Bool.not_eq_true] at he
    exact Or.inr (foldl_vocabAdd_all_keys (charSplit t) v w hw he)

theorem newMemory_has_input (m : List MemRec) (n : Word) (c : Category) :
    (newMemory m n c).any (fun mem => decide (mem.input = n)) = true := by
  unfold newMemory
  by_cases h : m.any (fun mem => decide (mem.input = n)) = true
  · rw [if_pos h]
    exact h
  · rw [if_neg h, List.any_append]
    simp

theorem newMemory_idem (m : List MemRec) (n : Word) (c : Category) :
    newMemory (newMemory m n c) n c = newMemory m n c := by
  conv_lhs => rw [newMemory]
  rw [if_pos (newMemory_has_input m n c)]

theorem map_upd_eq_self {o : List (Word × Word)} {k v : Word}
    (h : ∀ p ∈ o, p.1 = k → p = (k, v)) :
    o.map (fun p => if p.1 = k then (k, v) else p) = o := by
  induction o with
  | nil => rfl
  | cons p rest ih =>
    rw [List.map_cons, ih fun q hq => h q (List.mem_cons_of_mem p hq)]
    by_cases hp : p.1 = k
    · rw [if_pos hp, ← h p (List.mem_cons_self p rest) hp]
    · rw [if_neg hp]

theorem objInsert_mem_key {o : List (Word × Word)} {k v : Word} {p : Word × Word}
    (hp : p ∈ objInsert o k v) (hk : p.1 = k) : p = (k, v) := by
  unfold objInsert at hp
  by_cases h : objHasKey o k = true
  · rw [if_pos h] at hp
    obtain ⟨q, _, hq⟩ := List.mem_map.mp hp
    by_cases hqk : q.1 = k
    · rw [if_pos hqk] at hq
      exact hq.symm
    · rw [if_neg hqk] at hq
      exact absurd (hq ▸ hk) hqk
  · rw [if_neg h] at hp
    rcases List.mem_append.mp hp with hin | hone
    · exfalso
      exact h (List.any_eq_true.mpr ⟨p, hin, decide_eq_true hk⟩)
    · simpa using hone

theorem objInsert_idem (o : List (Word × Word)) (k v : Word) :
    objInsert (objInsert o k v) k v = objInsert o k v := by
  have hk : objHasKey (objInsert o k v) k = true := objHasKey_objInsert_self o k v
  have hmem : ∀ p ∈ objInsert o k v, p.1 = k → p = (k, v) :=
    fun p hp hpk => objInsert_mem_key hp hpk
  generalize hgen : objInsert o k v = o' at hk hmem ⊢
  unfold objInsert
  rw [if_pos hk]
  exact map_upd_eq_self hmem

theorem gk_eq {a b : Gatekeeper}
    (h1 : a.brain.vocab = b.brain.vocab)
    (h2 : a.brain.simpleVocab = b.brain.simpleVocab)
    (h3 : a.brain.simpleNgrams = b.brain.simpleNgrams)
    (h4 : a.brain.categories = b.brain.categories)
    (h5 : a.brain.simpleResponses = b.brain.simpleResponses)
    (h6 : a.brain.memory = b.brain.memory)
    (h7 : a.isInitialized = b.isInitialized) : a = b := by
  cases a with
  | mk ab ai =>
    cases ab
    cases b with
    | mk bb bi =>
      cases bb
      simp_all

/-- Claim C9: `learnFromFeedback` is idempotent — repeating a call with the
same arguments leaves every brain field as after the first call. -/
theorem learnFromFeedback_idem (g : Gatekeeper) (t : Word) (c : Category)
    (r : Option Word) :
    learnFromFeedback (learnFromFeedback g t c r) t c r = learnFromFeedback g t c r := by
  apply gk_eq
  · rw [learn_vocab, learn_vocab, updateVocab_idem]
  · cases c with
    | simple =>
      rw [learn_simpleVocab_simple, learn_simpleVocab_simple]
      apply foldl_setAdd_eq_of_subset
      intro x hx
      exact mem_foldl_setAdd.mpr (Or.inr hx)
    | complex =>
      rw [(learn_frame_complex (learnFromFeedback g t .complex r) t r).1,
        (learn_frame_complex g t r).1]
  · cases c with
    | simple =>
      rw [learn_ngrams_simple, learn_ngrams_simple]
      by_cases hl : decide ((wordsOf (normalizeText t)).length > 1) = true
      · rw [if_pos hl, if_pos hl]
        apply foldl_setAdd_eq_of_subset
        intro x hx
        exact mem_foldl_setAdd.mpr (Or.inr hx)
      · rw [if_neg hl, if_neg hl]
    | complex =>
      rw [(learn_frame_complex (learnFromFeedback g t .complex r) t r).2.1,
        (learn_frame_complex g t r).2.1]
  · rw [learn_categories, learn_categories]
  · cases c with
    | simple =>
      rw [learn_responses_simple, learn_responses_simple]
      by_cases htr : respTruthy r = true
      · rw [if_pos htr, if_pos htr]
        exact objInsert_idem _ _ _
      · rw [if_neg htr, if_neg htr]
    | complex =>
      rw [(learn_frame_complex (learnFromFeedback g t .complex r) t r).2.2,
        (learn_frame_complex g t r).2.2]
  · rw [learn_memory, learn_memory, newMemory_idem]
  · rfl

theorem foldl_vocabAdd_ext (l : List Word) (v : List (Word × Nat)) :
    ∃ ext, l.foldl vocabAdd v = v ++ ext := by
  induction l generalizing v with
  | nil => exact ⟨[], by simp⟩
  | cons a t ih =>
    have ha : ∃ e0, vocabAdd v a = v ++ e0 := by
      unfold vocabAdd
      by_cases hc : (!a.isEmpty && !(v.any (fun p => decide (p.1 = a)))) = true
      · exact ⟨[(a, v.length)], by rw [if_pos hc]⟩
      · exact ⟨[], by rw [if_neg hc]; simp⟩
    obtain ⟨e0, he0⟩ := ha
    obtain ⟨e1, he1⟩ := ih (v ++ e0)
    exact ⟨e0 ++ e1, by rw [List.foldl_cons, he0, he1, List.append_assoc]⟩

set_option maxRecDepth 1000000 in
/-- Claim C5: a `"complex"` feedback call leaves `simpleVocab`,
`simpleNgrams` and `simpleResponses` exactly unchanged; `vocab` and `memory`
can only grow; and in the end-to-end scenario, after learning
`"hello world"` as complex the query still classifies as `complex` (with the
record now in memory). -/
theorem complex_feedback_frame :
    (∀ (g : Gatekeeper) (t : Word) (r : Option Word),
      (learnFromFeedback g t .complex r).brain.simpleVocab = g.brain.simpleVocab ∧
      (learnFromFeedback g t .complex r).brain.simpleNgrams = g.brain.simpleNgrams ∧
      (learnFromFeedback g t .complex r).brain.simpleResponses = g.brain.simpleResponses ∧
      (∃ ext, (learnFromFeedback g t .complex r).brain.vocab = g.brain.vocab ++ ext) ∧
      ((learnFromFeedback g t .complex r).brain.memory = g.brain.memory ∨
       (learnFromFeedback g t .complex r).brain.memory =
         g.brain.memory ++ [MemRec.mk (normalizeText t) .complex])) ∧
    classify (learnFromFeedback seedGatekeeper (str "hello world") .complex none)
      (str "hello world") = Category.complex ∧
    MemRec.mk (normalizeText (str "hello world")) .complex ∈
      (learnFromFeedback seedGatekeeper (str "hello world") .complex none).brain.memory := by
  refine ⟨fun g t r => ⟨rfl, rfl, rfl, ?_, ?_⟩, by decide, by decide⟩
  · rw [learn_vocab]
    unfold updateVocab
    exact foldl_vocabAdd_ext _ _
  · rw [learn_memory]
    unfold newMemory
    by_cases hm : g.brain.memory.any (fun mem => decide (mem.input = normalizeText t)) = true
    · rw [if_pos hm]
      exact Or.inl rfl
    · rw [if_neg hm]
      exact Or.inr rfl

theorem firstAbsent_eq_none_iff (s : List Word) (l : List Word) :
    firstAbsent s l = none ↔ ∀ w ∈ l, w ∈ s := by
  induction l with
  | nil => simp [firstAbsent]
  | cons a t ih =>
    by_cases ha : a ∈ s
    · simp [firstAbsent, ha, ih]
    · simp [firstAbsent, ha]

theorem any_not_mem_eq_isSome (s : List Word) (l : List Word) :
    (l.any fun w => !(decide (w ∈ s))) = (firstAbsent s l).isSome := by
  induction l with
  | nil => rfl
  | cons a t ih =>
    by_cases ha : a ∈ s
    · simp [firstAbsent, ha, ih]
    · simp [firstAbsent, ha]

theorem adjacentPairs_eq_bigrams (l : List Word) : adjacentPairs l = bigrams l := by
  induction l with
  | nil => rfl
  | cons a t ih =>
    cases t with
    | nil => rfl
    | cons b r =>
      rw [adjacentPairs, ih]
      simp [bigrams]

/-- Claim C1: on every initialized state, `classify` computes exactly the
spec's five-rule first-match cascade. -/
theorem classify_matches_rule_cascade (g : Gatekeeper)
    (h : g.isInitialized = true) (text : Word) :
    classify g text = classifyCascade g.brain text := by
  by_cases hk : objHasKey g.brain.simpleResponses (normalizeText text) = true
  · have hk' : normalizeText text ∈ g.brain.simpleResponses.map Prod.fst := by
      obtain ⟨p, hp, hpk⟩ := List.any_eq_true.mp hk
      exact List.mem_map.mpr ⟨p, hp, of_decide_eq_true hpk⟩
    simp [classify, classifyCascade, h, hk, hk']
  · rw [Bool.not_eq_true] at hk
    have hk' : ¬ normalizeText text ∈ g.brain.simpleResponses.map Prod.fst := by
      intro hmem
      obtain ⟨p, hp, hpk⟩ := List.mem_map.mp hmem
      have : objHasKey g.brain.simpleResponses (normalizeText text) = true :=
        List.any_eq_true.mpr ⟨p, hp, decide_eq_true hpk⟩
      rw [this] at hk
      cases hk
    by_cases he : wordsOf (normalizeText text) = []
    · simp [classify, classifyCascade, h, hk, hk', he]
    · have hne : (wordsOf (normalizeText text)).isEmpty = false := by
        cases hq : wordsOf (normalizeText text) with
        | nil => exact absurd hq he
        | cons a t => rfl
      have hlen : ¬ (wordsOf (normalizeText text)).length = 0 := by
        simpa [List.length_eq_zero] using he
      cases hfa : firstAbsent g.brain.simpleVocab (wordsOf (normalizeText text)) with
      | some w =>
        have hany : (wordsOf (normalizeText text)).any
            (fun word => !(decide (word ∈ g.brain.simpleVocab))) = true := by
          rw [any_not_mem_eq_isSome, hfa]
          rfl
        simp [classify, classifyCascade, h, hk, hk', hne, hlen, hany, hfa]
      | none =>
        have hany : (wordsOf (normalizeText text)).any
            (fun word => !(decide (word ∈ g.brain.simpleVocab))) = false := by
          rw [any_not_mem_eq_isSome, hfa]
          rfl
        by_cases h2 : 2 ≤ (wordsOf (normalizeText text)).length
        · have h2' : (wordsOf (normalizeText text)).length > 1 := h2
          cases hfb : firstAbsent g.brain.simpleNgrams
              (adjacentPairs (wordsOf (normalizeText text))) with
          | some w =>
            have hbany : (bigrams (wordsOf (normalizeText text))).any
                (fun bg => !(decide (bg ∈ g.brain.simpleNgrams))) = true := by
              rw [← adjacentPairs_eq_bigrams, any_not_mem_eq_isSome, hfb]
              rfl
            simp [classify, classifyCascade, h, hk, hk', hne, hlen, hany, hfa, h2, h2',
              hbany, hfb]
          | none =>
            have hbany : (bigrams (wordsOf (normalizeText text))).any
                (fun bg => !(decide (bg ∈ g.brain.simpleNgrams))) = false := by
              rw [← adjacentPairs_eq_bigrams, any_not_mem_eq_isSome, hfb]
              rfl
            simp [classify, classifyCascade, h, hk, hk', hne, hlen, hany, hfa, h2, h2',
              hbany, hfb]
        · have h2' : ¬ (wordsOf (normalizeText text)).length > 1 := h2
          simp [classify, classifyCascade, h, hk, hk', hne, hlen, hany, hfa, h2, h2']

set_option maxRecDepth 1000000 in
/-- Witness for C1 on the seed gatekeeper and a multi-word query. -/
theorem classify_matches_rule_cascade_witness :
    seedGatekeeper.isInitialized = true ∧
    classify seedGatekeeper (str "how are you today") =
      classifyCascade seedGatekeeper.brain (str "how are you today") :=
  ⟨rfl, classify_matches_rule_cascade seedGatekeeper rfl (str "how are you today")⟩

theorem applyEvents_nil (g : Gatekeeper) : applyEvents g [] = g := rfl

theorem applyEvents_cons (g : Gatekeeper) (e : Event) (evs : List Event) :
    applyEvents g (e :: evs) =
      applyEvents (learnFromFeedback g e.text e.category e.response) evs := rfl

theorem applyEvents_isInitialized (g : Gatekeeper) (evs : List Event) :
    (applyEvents g evs).isInitialized = g.isInitialized := by
  induction evs generalizing g with
  | nil => rfl
  | cons e t ih => rw [applyEvents_cons, ih, learn_isInitialized]

theorem learn_memory_char (g : Gatekeeper) (t : Word) (c : Category) (r : Option Word) :
    (learnFromFeedback g t c r).brain.memory = g.brain.memory ∨
    ((learnFromFeedback g t c r).brain.memory =
       g.brain.memory ++ [MemRec.mk (normalizeText t) c] ∧
     normalizeText t ∉ g.brain.memory.map MemRec.input) := by
  rw [learn_memory]
  unfold newMemory
  by_cases hm : g.brain.memory.any (fun mem => decide (mem.input = normalizeText t)) = true
  · rw [if_pos hm]
    exact Or.inl rfl
  · rw [if_neg hm]
    refine Or.inr ⟨rfl, ?_⟩
    intro hmem
    obtain ⟨mem, hmemin, hmi⟩ := List.mem_map.mp hmem
    exact hm (List.any_eq_true.mpr ⟨mem, hmemin, decide_eq_true hmi⟩)

theorem learn_memory_mono (g : Gatekeeper) (t : Word) (c : Category) (r : Option Word)
    {x : MemRec} (h : x ∈ g.brain.memory) :
    x ∈ (learnFromFeedback g t c r).brain.memory := by
  rcases learn_memory_char g t c r with hs | ⟨ha, _⟩
  · rw [hs]
    exact h
  · rw [ha]
    exact List.mem_append_left _ h

theorem learn_inputs_mono (g : Gatekeeper) (t : Word) (c : Category) (r : Option Word)
    {x : Word} (h : x ∈ g.brain.memory.map MemRec.input) :
    x ∈ (learnFromFeedback g t c r).brain.memory.map MemRec.input := by
  obtain ⟨mem, hmemin, hmi⟩ := List.mem_map.mp h
  exact List.mem_map.mpr ⟨mem, learn_memory_mono g t c r hmemin, hmi⟩

theorem learn_input_mem (g : Gatekeeper) (t : Word) (c : Category) (r : Option Word) :
    normalizeText t ∈ (learnFromFeedback g t c r).brain.memory.map MemRec.input := by
  rw [learn_memory]
  unfold newMemory
  by_cases hm : g.brain.memory.any (fun mem => decide (mem.input = normalizeText t)) = true
  · rw [if_pos hm]
    obtain ⟨mem, hmemin, hmi⟩ := List.any_eq_true.mp hm
    exact List.mem_map.mpr ⟨mem, hmemin, of_decide_eq_true hmi⟩
  · rw [if_neg hm, List.map_append]
    exact List.mem_append_right _ (by simp)

theorem learn_memory_nodup (g : Gatekeeper) (t : Word) (c : Category) (r : Option Word)
    (h : (g.brain.memory.map MemRec.input).Nodup) :
    ((learnFromFeedback g t c r).brain.memory.map MemRec.input).Nodup := by
  rcases learn_memory_char g t c r with hs | ⟨ha, hfresh⟩
  · rw [hs]
    exact h
  · rw [ha, List.map_append]
    simp [List.nodup_append, h, hfresh]

/-- Claim C4: from any initial state with duplicate-free memory inputs (the
seed bootstrap has them, and a loaded save of such a state keeps them), every
trace of `learnFromFeedback` calls keeps at most one memory record per
normalized input, and a record not present initially carries the category of
the first event with its input — later relabelings append nothing. -/
theorem memory_first_write_wins (init : Gatekeeper) (evs : List Event)
    (hnd : (init.brain.memory.map MemRec.input).Nodup) :
    ((applyEvents init evs).brain.memory.map MemRec.input).Nodup ∧
    ∀ rec ∈ (applyEvents init evs).brain.memory,
      rec ∈ init.brain.memory ∨
        (rec.input ∉ init.brain.memory.map MemRec.input ∧
         ∃ e, evs.find? (fun x => decide (normalizeText x.text = rec.input)) = some e ∧
              rec.category = e.category) := by
  induction evs generalizing init with
  | nil => exact ⟨hnd, fun rec h => Or.inl h⟩
  | cons e evs ih =>
    rw [applyEvents_cons]
    obtain ⟨h1, h2⟩ := ih (learnFromFeedback init e.text e.category e.response)
      (learn_memory_nodup _ _ _ _ hnd)
    refine ⟨h1, ?_⟩
    intro rec hrec
    rcases h2 rec hrec with hin | ⟨hfresh, e', hfind, hcat⟩
    · rcases learn_memory_char init e.text e.category e.response with hs | ⟨ha, hnotin⟩
      · rw [hs] at hin
        exact Or.inl hin
      · rw [ha] at hin
        rcases List.mem_append.mp hin with hmem | hmem
        · exact Or.inl hmem
        · have hrec' : rec = MemRec.mk (normalizeText e.text) e.category := by
            simpa using hmem
          refine Or.inr ⟨?_, e, ?_, ?_⟩
          · rw [hrec']
            exact hnotin
          · exact List.find?_cons_of_pos _ (by rw [hrec']; simp)
          · rw [hrec']
    · have hfresh0 : rec.input ∉ init.brain.memory.map MemRec.input := fun hmem =>
        hfresh (learn_inputs_mono init e.text e.category e.response hmem)
      have hne : ¬ normalizeText e.text = rec.input := by
        intro heq
        apply hfresh
        rw [← heq]
        exact learn_input_mem init e.text e.category e.response
      refine Or.inr ⟨hfresh0, e', ?_, hcat⟩
      rw [List.find?_cons_of_neg _ (by simpa using hne)]
      exact hfind

set_option maxRecDepth 1000000 in
/-- Witness for C4 at the seed gatekeeper and a one-event trace. -/
theorem memory_first_write_wins_witness :
    (seedGatekeeper.brain.memory.map MemRec.input).Nodup ∧
    (((applyEvents seedGatekeeper
        [Event.mk (str "ok ok") Category.complex none]).brain.memory.map
          MemRec.input).Nodup ∧
     ∀ rec ∈ (applyEvents seedGatekeeper
        [Event.mk (str "ok ok") Category.complex none]).brain.memory,
       rec ∈ seedGatekeeper.brain.memory ∨
         (rec.input ∉ seedGatekeeper.brain.memory.map MemRec.input ∧
          ∃ e, [Event.mk (str "ok ok") Category.complex none].find?
                 (fun x => decide (normalizeText x.text = rec.input)) = some e ∧
               rec.category = e.category)) :=
  ⟨by decide,
   memory_first_write_wins seedGatekeeper
     [Event.mk (str "ok ok") Category.complex none] (by decide)⟩

theorem mem_objInsert_cases {o : List (Word × Word)} {k v : Word} {p : Word × Word}
    (hp : p ∈ objInsert o k v) : p ∈ o ∨ p.1 = k := by
  unfold objInsert at hp
  by_cases h : objHasKey o k = true
  · rw [if_pos h] at hp
    obtain ⟨q, hq, hfq⟩ := List.mem_map.mp hp
    by_cases hqk : q.1 = k
    · right
      rw [← hfq, if_pos hqk]
    · left
      rw [← hfq, if_neg hqk]
      exact hq
  · rw [if_neg h] at hp
    rcases List.mem_append.mp hp with h1 | h1
    · exact Or.inl h1
    · right
      have := List.mem_singleton.mp h1
      rw [this]

theorem learn_responses_cases (g : Gatekeeper) (t : Word) (c : Category)
    (r : Option Word) {p : Word × Word}
    (hp : p ∈ (learnFromFeedback g t c r).brain.simpleResponses) :
    p ∈ g.brain.simpleResponses ∨ (c = Category.simple ∧ p.1 = normalizeText t) := by
  cases c with
  | complex =>
    rw [(learn_frame_complex g t r).2.2] at hp
    exact Or.inl hp
  | simple =>
    rw [learn_responses_simple] at hp
    by_cases htr : respTruthy r = true
    · rw [if_pos htr] at hp
      rcases mem_objInsert_cases hp with h | h
      · exact Or.inl h
      · exact Or.inr ⟨rfl, h⟩
    · rw [if_neg htr] at hp
      exact Or.inl hp

theorem learn_simpleVocab_cases (g : Gatekeeper) (t : Word) (c : Category)
    (r : Option Word) {w : Word}
    (hw : w ∈ (learnFromFeedback g t c r).brain.simpleVocab) :
    w ∈ g.brain.simpleVocab ∨ (c = Category.simple ∧ w ∈ wordsOf (normalizeText t)) := by
  cases c with
  | complex =>
    rw [(learn_frame_complex g t r).1] at hw
    exact Or.inl hw
  | simple =>
    rw [learn_simpleVocab_simple] at hw
    rcases mem_foldl_setAdd.mp hw with h | h
    · exact Or.inl h
    · exact Or.inr ⟨rfl, h⟩

theorem learn_simpleVocab_mono (g : Gatekeeper) (t : Word) (c : Category)
    (r : Option Word) {w : Word} (hw : w ∈ g.brain.simpleVocab) :
    w ∈ (learnFromFeedback g t c r).brain.simpleVocab := by
  cases c with
  | complex =>
    rw [(learn_frame_complex g t r).1]
    exact hw
  | simple =>
    rw [learn_simpleVocab_simple]
    exact mem_foldl_setAdd.mpr (Or.inl hw)

theorem learn_newkey_words (g : Gatekeeper) (t : Word) (r : Option Word) {w : Word}
    (hw : w ∈ wordsOf (normalizeText t)) :
    w ∈ (learnFromFeedback g t .simple r).brain.simpleVocab := by
  rw [learn_simpleVocab_simple]
  exact mem_foldl_setAdd.mpr (Or.inr hw)

/-- The classification-relevant invariant of a gatekeeper state relative to a
set `S` of "seen in a simple learning event" words: every word of
`simpleVocab` is in `S`, and every word of every `simpleResponses` key is in
`simpleVocab`. -/
def GoodState (g : Gatekeeper) (S : Word → Prop) : Prop :=
  (∀ w ∈ g.brain.simpleVocab, S w) ∧
  (∀ p ∈ g.brain.simpleResponses, ∀ w ∈ wordsOf p.1, w ∈ g.brain.simpleVocab)

theorem goodState_step {g : Gatekeeper} {S : Word → Prop} {e : Event}
    (hg : GoodState g S)
    (he : e.category = Category.simple → ∀ w ∈ wordsOf (normalizeText e.text), S w) :
    GoodState (learnFromFeedback g e.text e.category e.response) S := by
  obtain ⟨hv, hr⟩ := hg
  constructor
  · intro w hw
    rcases learn_simpleVocab_cases g e.text e.category e.response hw with h | ⟨hc, h⟩
    · exact hv w h
    · exact he hc w h
  · intro p hp w hw
    rcases learn_responses_cases g e.text e.category e.response hp with h | ⟨hc, h⟩
    · exact learn_simpleVocab_mono g e.text e.category e.response (hr p h w hw)
    · rw [h] at hw
      rw [hc]
      exact learn_newkey_words g e.text e.response hw

theorem goodState_trace {S : Word → Prop} (evs : List Event) :
    ∀ g : Gatekeeper, GoodState g S →
      (∀ e ∈ evs, e.category = Category.simple →
        ∀ w ∈ wordsOf (normalizeText e.text), S w) →
      GoodState (applyEvents g evs) S := by
  induction evs with
  | nil =>
    intro g hg _
    exact hg
  | cons e t ih =>
    intro g hg hall
    rw [applyEvents_cons]
    exact ih _ (goodState_step hg (hall e (List.mem_cons_self e t)))
      fun e' he' => hall e' (List.mem_cons_of_mem e he')

set_option maxRecDepth 1000000 in
/-- Claim C3: after any trace of learning events on the seeded gatekeeper, a
query containing a word never seen in any simple learning event (seed phrases
included) classifies as `complex`, whatever its other words. -/
theorem unknown_word_veto (evs : List Event) (query : Word)
    (h : ∃ w ∈ wordsOf (normalizeText query), ¬ SeenSimple evs w) :
    classify (applyEvents seedGatekeeper evs) query = Category.complex := by
  obtain ⟨w0, hw0, hunseen⟩ := h
  have hsub : ∀ w ∈ seedGatekeeper.brain.simpleVocab, w ∈ seedSimpleWords := by decide
  have hseedresp : ∀ p ∈ seedGatekeeper.brain.simpleResponses,
      ∀ w ∈ wordsOf p.1, w ∈ seedGatekeeper.brain.simpleVocab := by decide
  obtain ⟨hv, hr⟩ : GoodState (applyEvents seedGatekeeper evs) (SeenSimple evs) :=
    goodState_trace evs seedGatekeeper
      ⟨fun w hw => Or.inl (hsub w hw), hseedresp⟩
      fun e he hc w hw => Or.inr ⟨e, he, hc, hw⟩
  have hinit : (applyEvents seedGatekeeper evs).isInitialized = true := by
    rw [applyEvents_isInitialized]
    rfl
  have hw0v : ¬ w0 ∈ (applyEvents seedGatekeeper evs).brain.simpleVocab :=
    fun hmem => hunseen (hv w0 hmem)
  have hkey : objHasKey (applyEvents seedGatekeeper evs).brain.simpleResponses
      (normalizeText query) = false := by
    rw [← Bool.not_eq_true]
    intro hk
    obtain ⟨p, hp, hpk⟩ := List.any_eq_true.mp hk
    have hpk' : p.1 = normalizeText query := of_decide_eq_true hpk
    apply hunseen
    apply hv w0
    apply hr p hp w0
    rw [hpk']
    exact hw0
  have hne : (wordsOf (normalizeText query)).isEmpty = false := by
    cases hq : wordsOf (normalizeText query) with
    | nil => rw [hq] at hw0; cases hw0
    | cons a t => rfl
  have hany : (wordsOf (normalizeText query)).any
      (fun word =>
        !(decide (word ∈ (applyEvents seedGatekeeper evs).brain.simpleVocab))) = true :=
    List.any_eq_true.mpr ⟨w0, hw0, by simp [hw0v]⟩
  simp [classify, hinit, hkey, hne, hany]

set_option maxRecDepth 1000000 in
/-- Witness for C3: the empty trace and a query made of one unseen word. -/
theorem unknown_word_veto_witness :
    (∃ w ∈ wordsOf (normalizeText (str "qqq")), ¬ SeenSimple [] w) ∧
    classify (applyEvents seedGatekeeper []) (str "qqq") = Category.complex :=
  ⟨by decide, unknown_word_veto [] (str "qqq") (by decide)⟩
